import Mathlib

/-!
Shallow embedding of the work-orchestration engine (`src/work.rs`).

Modelling conventions:
* `u64` is modelled as `Nat` (the id counter only ever increments by one per
  `add` call; overflow is not reachable in any scenario the claims quantify
  over at machine scale).
* The `Work` trait object is modelled as an inductive behaviour value: calling
  `execute` either fails with a `WorkError` or yields the work value's next
  internal state (Rust mutates interior state behind `&self`); `status` is a
  pure query of the current state.
* Rust panics (out-of-bounds `Vec` indexing in `move_completed_work_items`)
  are modelled with `Option`: `none` is a panic.
* The unbounded `while !self.stop` loop of `run` is modelled with explicit
  fuel; `RunOutcome.outOfFuel` records the engine state when fuel runs out
  (i.e. the loop is still spinning), so a single loop iteration is observable
  as `run 1`.
-/

/-- `WorkError` from `src/work.rs`: classifies execution failure. -/
inductive WorkError where
  | NotImplemented
  | Unknown
  | Unrecoverable
  | Recoverable
deriving DecidableEq, Repr

/-- `WorkStatus` from `src/work.rs`: a work value's self-reported progress. -/
inductive WorkStatus where
  | NotStarted
  | InProgress
  | Complete
deriving DecidableEq, Repr

/-- `WorkItemStatus` from `src/work.rs`: the engine's view of an item's lifecycle. -/
inductive WorkItemStatus where
  | NotStarted
  | InProgress
  | Complete
  | Error (e : WorkError)
deriving DecidableEq, Repr

/-- The `Work` trait (`execute(&self) -> Result<(), WorkError>`,
`status(&self) -> WorkStatus`) as a behaviour value: `execute` either errors
or steps to the next internal state; `status` reads the current state. -/
inductive Work where
  | mk (execBehaviour : Except WorkError Work) (statusNow : WorkStatus)

/-- `Work::execute`: on `Ok` the work value's interior state advances to the
returned `Work`; on `Err e` the call fails with `e`. -/
def Work.execute : Work → Except WorkError Work
  | .mk e _ => e

/-- `Work::status`: pure query of current progress. -/
def Work.status : Work → WorkStatus
  | .mk _ s => s

/-- `WorkItem` from `src/work.rs`. -/
structure WorkItem where
  id : Nat
  name : String
  description : Option String
  status : WorkItemStatus
  work : Work

/-- `WorkEngine` from `src/work.rs`. -/
structure WorkEngine where
  work_items : List WorkItem
  completed_work_items : List WorkItem
  work_item_counter : Nat
  stop : Bool

/-- `WorkEngine::new`. -/
def WorkEngine.new : WorkEngine :=
  { work_items := []
    completed_work_items := []
    work_item_counter := 0
    stop := false }

/-- `WorkEngine::add_work_item`: pushes onto the active vector. -/
def WorkEngine.add_work_item (e : WorkEngine) (item : WorkItem) : WorkEngine :=
  { e with work_items := e.work_items ++ [item] }

/-- `WorkEngine::add`: wraps the work as a `NotStarted` item carrying the
current counter value as id, pushes it, increments the counter, and returns
`work_item_counter - 1` (the pre-increment counter value). -/
def WorkEngine.add (e : WorkEngine) (name : String) (description : Option String)
    (work : Work) : WorkEngine × Nat :=
  let e1 := e.add_work_item
    { id := e.work_item_counter
      name := name
      description := description
      status := WorkItemStatus.NotStarted
      work := work }
  let e2 := { e1 with work_item_counter := e1.work_item_counter + 1 }
  (e2, e2.work_item_counter - 1)

/-- `WorkEngine::stop` (the method; named `setStop` here because `stop` is the
field's projection in Lean): sets the control flag. -/
def WorkEngine.setStop (e : WorkEngine) : WorkEngine :=
  { e with stop := true }

/-- The loop body of `move_completed_work_items`:
`for i in 0..n { if work_items[i].status == Complete { push(remove(i)) } }`
where `n` is the length of the active vector captured once, before the loop.
Here `i` is the current index and `fuel` the number of iterations left
(`n - i`), so the loop always performs exactly `n` iterations.
`work_items[i]` on an index past the current length is a Rust panic,
modelled as `none`. -/
def moveLoop : Nat → Nat → List WorkItem → List WorkItem →
    Option (List WorkItem × List WorkItem)
  | _, 0, items, completed => some (items, completed)
  | i, fuel + 1, items, completed =>
    match items[i]? with
    | none => none
    | some item =>
      if item.status = WorkItemStatus.Complete then
        moveLoop (i + 1) fuel (items.eraseIdx i) (completed ++ [item])
      else
        moveLoop (i + 1) fuel items completed

/-- `WorkEngine::move_completed_work_items`: runs the scan-and-remove loop
over the active vector; `none` is an index-out-of-bounds panic. -/
def WorkEngine.move_completed_work_items (e : WorkEngine) : Option WorkEngine :=
  match moveLoop 0 e.work_items.length e.work_items e.completed_work_items with
  | none => none
  | some (active, completed) =>
    some { e with work_items := active, completed_work_items := completed }

/-- The dispatch pass of `run`: traverse the active items in order; for each
`NotStarted` item call `execute`; on `Ok` mark it `InProgress` (its work value
advancing to its next interior state); on `Err` stop immediately, leaving the
remaining items untouched, with error `WorkError::Unknown` (the concrete error
is discarded by the source). Returns the updated list and the short-circuit
error, if any. -/
def dispatch : List WorkItem → List WorkItem × Option WorkError
  | [] => ([], none)
  | item :: rest =>
    if item.status = WorkItemStatus.NotStarted then
      match item.work.execute with
      | .ok w' =>
        let r := dispatch rest
        ({ item with status := WorkItemStatus.InProgress, work := w' } :: r.1, r.2)
      | .error _ => (item :: rest, some WorkError.Unknown)
    else
      let r := dispatch rest
      (item :: r.1, r.2)

/-- The poll pass of `run`: every `InProgress` item whose work reports
`WorkStatus::Complete` is marked `Complete`. Never fails. -/
def poll : List WorkItem → List WorkItem
  | [] => []
  | item :: rest =>
    if item.status = WorkItemStatus.InProgress ∧ item.work.status = WorkStatus.Complete then
      { item with status := WorkItemStatus.Complete } :: poll rest
    else
      item :: poll rest

/-- Possible outcomes of the fuelled `run` model. -/
inductive RunOutcome where
  | ok (eng : WorkEngine)
  | err (e : WorkError) (eng : WorkEngine)
  | panic
  | outOfFuel (eng : WorkEngine)

/-- `WorkEngine::run`, fuelled: while `!stop`, run the dispatch pass (on `Err`
return it, keeping the partially advanced items), the poll pass, then the
sweep (whose out-of-bounds panic aborts everything); on `stop` return
`Ok(())`. -/
def WorkEngine.run : Nat → WorkEngine → RunOutcome
  | 0, eng => RunOutcome.outOfFuel eng
  | fuel + 1, eng =>
    if eng.stop then
      RunOutcome.ok eng
    else
      let d := dispatch eng.work_items
      match d.2 with
      | some e => RunOutcome.err e { eng with work_items := d.1 }
      | none =>
        let eng1 := { eng with work_items := poll d.1 }
        match eng1.move_completed_work_items with
        | none => RunOutcome.panic
        | some eng2 => WorkEngine.run fuel eng2

/-! ### Helper definitions for the proofs -/

/-- What the dispatch pass does to a single item it reaches without aborting:
a `NotStarted` item whose `execute` succeeds becomes `InProgress` with its
work value advanced; every other item is untouched. -/
def advanceOk (it : WorkItem) : WorkItem :=
  if it.status = WorkItemStatus.NotStarted then
    match it.work.execute with
    | .ok w' => { it with status := WorkItemStatus.InProgress, work := w' }
    | .error _ => it
  else it

/-- One forward step of the item lifecycle: stay put, start
(`NotStarted → InProgress`), or finish (`InProgress → Complete`). -/
def StatusStep (s t : WorkItemStatus) : Prop :=
  s = t ∨ (s = WorkItemStatus.NotStarted ∧ t = WorkItemStatus.InProgress) ∨
    (s = WorkItemStatus.InProgress ∧ t = WorkItemStatus.Complete)

/-! ### Dispatch-pass lemmas -/

theorem dispatch_length (items : List WorkItem) :
    (dispatch items).1.length = items.length := by
  induction items with
  | nil => rfl
  | cons item rest ih =>
    rw [dispatch]
    by_cases hs : item.status = WorkItemStatus.NotStarted
    · simp only [hs, if_pos]
      cases hx : item.work.execute with
      | ok w' => simpa using ih
      | error e => simp
    · simp only [hs, if_neg, not_false_iff]
      simpa using ih

theorem dispatch_all_ok (items : List WorkItem)
    (h : ∀ it ∈ items, it.status = WorkItemStatus.NotStarted →
      ∃ w', it.work.execute = Except.ok w') :
    dispatch items = (items.map advanceOk, none) := by
  induction items with
  | nil => rfl
  | cons item rest ih =>
    rw [dispatch]
    have ihr := ih fun it hm hs => h it (List.mem_cons_of_mem _ hm) hs
    by_cases hs : item.status = WorkItemStatus.NotStarted
    · obtain ⟨w', hw⟩ := h item (List.mem_cons_self _ _) hs
      simp [hs, hw, ihr, advanceOk]
    · simp [hs, ihr, advanceOk]

theorem dispatch_fail (pre : List WorkItem) (k : WorkItem) (post : List WorkItem)
    (hpre : ∀ it ∈ pre, it.status = WorkItemStatus.NotStarted →
      ∃ w', it.work.execute = Except.ok w')
    (hk : k.status = WorkItemStatus.NotStarted)
    (e : WorkError) (he : k.work.execute = Except.error e) :
    dispatch (pre ++ k :: post) =
      (pre.map advanceOk ++ k :: post, some WorkError.Unknown) := by
  induction pre with
  | nil => simp [dispatch, hk, he]
  | cons item rest ih =>
    have ihr := ih fun it hm hs => hpre it (List.mem_cons_of_mem _ hm) hs
    rw [List.cons_append, dispatch]
    by_cases hs : item.status = WorkItemStatus.NotStarted
    · obtain ⟨w', hw⟩ := hpre item (List.mem_cons_self _ _) hs
      simp [hs, hw, ihr, advanceOk]
    · simp [hs, ihr, advanceOk]

theorem dispatch_statusStep (items : List WorkItem) :
    List.Forall₂ (fun a b => a.id = b.id ∧ StatusStep a.status b.status)
      items (dispatch items).1 := by
  induction items with
  | nil => exact List.Forall₂.nil
  | cons item rest ih =>
    rw [dispatch]
    by_cases hs : item.status = WorkItemStatus.NotStarted
    · cases hx : item.work.execute with
      | ok w' =>
        simp only [hs, if_pos]
        exact List.Forall₂.cons ⟨rfl, Or.inr (Or.inl ⟨hs, rfl⟩)⟩ ih
      | error e =>
        simp only [hs, if_pos]
        exact List.Forall₂.cons ⟨rfl, Or.inl rfl⟩
          ((List.forall₂_same).mpr fun x _ => ⟨rfl, Or.inl rfl⟩)
    · simp only [hs, if_neg, not_false_iff]
      exact List.Forall₂.cons ⟨rfl, Or.inl rfl⟩ ih

/-! ### Poll-pass lemmas -/

theorem poll_length (items : List WorkItem) : (poll items).length = items.length := by
  induction items with
  | nil => rfl
  | cons item rest ih =>
    rw [poll]
    by_cases hc : item.status = WorkItemStatus.InProgress ∧
      item.work.status = WorkStatus.Complete
    · simp [hc, ih]
    · simp [hc, ih]

theorem poll_statusStep (items : List WorkItem) :
    List.Forall₂ (fun a b => a.id = b.id ∧ StatusStep a.status b.status)
      items (poll items) := by
  induction items with
  | nil => exact List.Forall₂.nil
  | cons item rest ih =>
    rw [poll]
    by_cases hc : item.status = WorkItemStatus.InProgress ∧
      item.work.status = WorkStatus.Complete
    · simp only [hc, if_pos]
      exact List.Forall₂.cons ⟨rfl, Or.inr (Or.inr ⟨hc.1, rfl⟩)⟩ ih
    · simp only [hc, if_neg, not_false_iff]
      exact List.Forall₂.cons ⟨rfl, Or.inl rfl⟩ ih

/-! ### Sweep-loop lemmas -/

theorem getElem?_some_lt {l : List WorkItem} {i : Nat} {a : WorkItem}
    (h : l[i]? = some a) : i < l.length := by
  by_contra hc
  rw [List.getElem?_eq_none (by omega)] at h
  cases h

/-- If fewer items remain than loop iterations, the scan is doomed: it will
index past the end of the vector (a panic). -/
theorem moveLoop_eq_none (fuel : Nat) :
    ∀ (i : Nat) (items completed : List WorkItem),
      items.length < i + fuel → 1 ≤ fuel →
      moveLoop i fuel items completed = none := by
  induction fuel with
  | zero => intro i items c _ h1; omega
  | succ fuel ih =>
    intro i items c hlen _
    rw [moveLoop]
    cases hx : items[i]? with
    | none => rfl
    | some item =>
      have hi : i < items.length := getElem?_some_lt hx
      have hlen' : (items.eraseIdx i).length = items.length - 1 := by
        rw [List.length_eraseIdx]
        simp [hi]
      cases fuel with
      | zero => exact absurd hi (by omega)
      | succ f =>
        by_cases hc : item.status = WorkItemStatus.Complete
        · simp only [hc, if_pos]
          exact ih (i + 1) _ _ (by omega) (by omega)
        · simp only [hc, if_neg, not_false_iff]
          exact ih (i + 1) _ _ (by omega) (by omega)

/-- If the scan finishes without panicking, the part of the vector it never
touched (before index `i`) is intact and everything still in the vector from
index `i` on is not `Complete`. -/
theorem moveLoop_some_not_complete (fuel : Nat) :
    ∀ (i : Nat) (items completed act comp : List WorkItem),
      items.length ≤ i + fuel →
      moveLoop i fuel items completed = some (act, comp) →
      act.take i = items.take i ∧
        ∀ x ∈ act.drop i, x.status ≠ WorkItemStatus.Complete := by
  induction fuel with
  | zero =>
    intro i items c act comp hlen h
    rw [moveLoop] at h
    simp only [Option.some.injEq, Prod.mk.injEq] at h
    obtain ⟨rfl, rfl⟩ := h
    refine ⟨rfl, ?_⟩
    intro x hx
    rw [List.drop_eq_nil_of_le (by omega)] at hx
    cases hx
  | succ fuel ih =>
    intro i items c act comp hlen h
    rw [moveLoop] at h
    cases hx : items[i]? with
    | none => rw [hx] at h; cases h
    | some item =>
      rw [hx] at h
      have hi : i < items.length := getElem?_some_lt hx
      have hlen' : (items.eraseIdx i).length = items.length - 1 := by
        rw [List.length_eraseIdx]
        simp [hi]
      by_cases hc : item.status = WorkItemStatus.Complete
      · simp only [hc, if_pos] at h
        cases fuel with
        | zero =>
          rw [moveLoop] at h
          simp only [Option.some.injEq, Prod.mk.injEq] at h
          obtain ⟨rfl, rfl⟩ := h
          constructor
          · rw [List.eraseIdx_eq_take_drop_succ, List.take_append_eq_append_take,
              List.take_take, Nat.min_self, List.length_take,
              Nat.min_eq_left (by omega), Nat.sub_self, List.take_zero,
              List.append_nil]
          · intro x hxm
            rw [List.drop_eq_nil_of_le (by omega)] at hxm
            cases hxm
        | succ f =>
          exfalso
          rw [moveLoop_eq_none (f + 1) (i + 1) _ _ (by omega) (by omega)] at h
          cases h
      · simp only [hc, if_neg, not_false_iff] at h
        obtain ⟨htake, hdrop⟩ := ih (i + 1) items c act comp (by omega) h
        have hacti : act[i]? = some item := by
          rw [← List.getElem?_take_of_lt (l := act) (Nat.lt_succ_self i), htake,
            List.getElem?_take_of_lt (Nat.lt_succ_self i)]
          exact hx
        have hia : i < act.length := getElem?_some_lt hacti
        constructor
        · have h1 : List.take i (List.take (i + 1) act) = List.take i act := by
            rw [List.take_take, Nat.min_eq_left (by omega)]
          have h2 : List.take i (List.take (i + 1) items) = List.take i items := by
            rw [List.take_take, Nat.min_eq_left (by omega)]
          rw [← h1, ← h2, htake]
        · intro x hxm
          rw [List.drop_eq_getElem_cons hia] at hxm
          rcases List.mem_cons.mp hxm with rfl | hxm
          · have hgi : act.get ⟨i, hia⟩ = item := by
              have h5 := List.getElem?_eq_getElem hia
              rw [hacti] at h5
              exact (Option.some.inj h5).symm
            show (act.get ⟨i, hia⟩).status ≠ WorkItemStatus.Complete
            rw [hgi]
            exact hc
          · exact hdrop x hxm

/-- Whatever the scan returns came from the vectors it was given: surviving
active items come from the input vector, completed items from the old
completed vector or the input vector. -/
theorem moveLoop_mem (fuel : Nat) :
    ∀ (i : Nat) (items completed act comp : List WorkItem),
      moveLoop i fuel items completed = some (act, comp) →
      (∀ x ∈ act, x ∈ items) ∧ (∀ x ∈ comp, x ∈ completed ∨ x ∈ items) := by
  induction fuel with
  | zero =>
    intro i items c act comp h
    rw [moveLoop] at h
    simp only [Option.some.injEq, Prod.mk.injEq] at h
    obtain ⟨rfl, rfl⟩ := h
    exact ⟨fun x hx => hx, fun x hx => Or.inl hx⟩
  | succ fuel ih =>
    intro i items c act comp h
    rw [moveLoop] at h
    cases hx : items[i]? with
    | none => rw [hx] at h; cases h
    | some item =>
      rw [hx] at h
      have hitem : item ∈ items := List.getElem?_mem hx
      by_cases hc : item.status = WorkItemStatus.Complete
      · simp only [hc, if_pos] at h
        obtain ⟨ha, hcp⟩ := ih (i + 1) _ _ act comp h
        refine ⟨?_, ?_⟩
        · intro x hxm
          exact (List.eraseIdx_sublist items i).subset (ha x hxm)
        · intro x hxm
          rcases hcp x hxm with hin | hin
          · rcases List.mem_append.mp hin with hin | hin
            · exact Or.inl hin
            · rw [List.mem_singleton] at hin
              exact Or.inr (hin ▸ hitem)
          · exact Or.inr ((List.eraseIdx_sublist items i).subset hin)
      · simp only [hc, if_neg, not_false_iff] at h
        exact ih (i + 1) _ _ act comp h

/-- The scan conserves items: every removal from the active vector is matched
by exactly one append to the completed vector. -/
theorem moveLoop_length (fuel : Nat) :
    ∀ (i : Nat) (items completed act comp : List WorkItem),
      moveLoop i fuel items completed = some (act, comp) →
      act.length + comp.length = items.length + completed.length := by
  induction fuel with
  | zero =>
    intro i items c act comp h
    rw [moveLoop] at h
    simp only [Option.some.injEq, Prod.mk.injEq] at h
    obtain ⟨rfl, rfl⟩ := h
    rfl
  | succ fuel ih =>
    intro i items c act comp h
    rw [moveLoop] at h
    cases hx : items[i]? with
    | none => rw [hx] at h; cases h
    | some item =>
      rw [hx] at h
      have hi : i < items.length := getElem?_some_lt hx
      have hlen' : (items.eraseIdx i).length = items.length - 1 := by
        rw [List.length_eraseIdx]
        simp [hi]
      by_cases hc : item.status = WorkItemStatus.Complete
      · simp only [hc, if_pos] at h
        have := ih (i + 1) _ _ act comp h
        rw [hlen', List.length_append, List.length_singleton] at this
        omega
      · simp only [hc, if_neg, not_false_iff] at h
        exact ih (i + 1) _ _ act comp h

/-- Every item the scan appends to the completed vector was checked to be
`Complete` first. -/
theorem moveLoop_completed_status (fuel : Nat) :
    ∀ (i : Nat) (items completed act comp : List WorkItem),
      moveLoop i fuel items completed = some (act, comp) →
      ∀ x ∈ comp, x ∈ completed ∨ x.status = WorkItemStatus.Complete := by
  induction fuel with
  | zero =>
    intro i items c act comp h
    rw [moveLoop] at h
    simp only [Option.some.injEq, Prod.mk.injEq] at h
    obtain ⟨rfl, rfl⟩ := h
    exact fun x hx => Or.inl hx
  | succ fuel ih =>
    intro i items c act comp h
    rw [moveLoop] at h
    cases hx : items[i]? with
    | none => rw [hx] at h; cases h
    | some item =>
      rw [hx] at h
      by_cases hc : item.status = WorkItemStatus.Complete
      · simp only [hc, if_pos] at h
        intro x hxm
        rcases ih (i + 1) _ _ act comp h x hxm with hin | hin
        · rcases List.mem_append.mp hin with hin | hin
          · exact Or.inl hin
          · rw [List.mem_singleton] at hin
            exact Or.inr (hin ▸ hc)
        · exact Or.inr hin
      · simp only [hc, if_neg, not_false_iff] at h
        exact ih (i + 1) _ _ act comp h

/-! ### Folding `add` over a list of submissions -/

/-- The items a sequence of `add` calls creates, starting from counter `c`:
fresh `NotStarted` items with consecutive ids. -/
def mkItems : Nat → List (String × Option String × Work) → List WorkItem
  | _, [] => []
  | c, (n, d, w) :: rest =>
    { id := c, name := n, description := d,
      status := WorkItemStatus.NotStarted, work := w } :: mkItems (c + 1) rest

/-- Perform a sequence of `add` calls, collecting the returned ids in order. -/
def addAll : WorkEngine → List (String × Option String × Work) → WorkEngine × List Nat
  | e, [] => (e, [])
  | e, (n, d, w) :: rest =>
    let r := e.add n d w
    let r2 := addAll r.1 rest
    (r2.1, r.2 :: r2.2)

theorem mkItems_map_id (ws : List (String × Option String × Work)) :
    ∀ c : Nat, (mkItems c ws).map WorkItem.id = List.range' c ws.length := by
  induction ws with
  | nil => intro c; rfl
  | cons hd rest ih =>
    intro c
    obtain ⟨n, d, w⟩ := hd
    simp only [mkItems, List.map_cons, List.length_cons, List.range'_succ]
    rw [ih (c + 1)]

theorem mkItems_status (ws : List (String × Option String × Work)) :
    ∀ (c : Nat), ∀ x ∈ mkItems c ws, x.status = WorkItemStatus.NotStarted := by
  induction ws with
  | nil => intro c x hx; cases hx
  | cons hd rest ih =>
    intro c x hx
    obtain ⟨n, d, w⟩ := hd
    rcases List.mem_cons.mp hx with rfl | hx
    · rfl
    · exact ih (c + 1) x hx

theorem addAll_spec (ws : List (String × Option String × Work)) :
    ∀ e : WorkEngine,
      addAll e ws =
        ({ e with
            work_items := e.work_items ++ mkItems e.work_item_counter ws,
            work_item_counter := e.work_item_counter + ws.length },
          List.range' e.work_item_counter ws.length) := by
  induction ws with
  | nil =>
    intro e
    simp [addAll, mkItems]
  | cons hd rest ih =>
    intro e
    obtain ⟨n, d, w⟩ := hd
    simp only [addAll, WorkEngine.add, WorkEngine.add_work_item]
    rw [ih]
    simp only [mkItems, List.length_cons, List.range'_succ, Prod.mk.injEq,
      WorkEngine.mk.injEq, Nat.add_sub_cancel, List.append_assoc,
      List.cons_append, List.nil_append, List.singleton_append, true_and,
      and_true]
    omega

/-! ### Lemmas about the `run` loop -/

theorem run_of_stop (eng : WorkEngine) (fuel : Nat) (h : eng.stop = true) :
    WorkEngine.run (fuel + 1) eng = RunOutcome.ok eng := by
  rw [WorkEngine.run]
  simp [h]

/-- If the active collection splits as `pre ++ k :: post` where every
`NotStarted` item of `pre` executes successfully and `k` is `NotStarted` with
a failing `execute`, then `run` aborts in its first dispatch pass with
`WorkError::Unknown`, the items of `pre` advanced and `k :: post`
untouched. -/
theorem run_dispatch_err (eng : WorkEngine) (pre : List WorkItem) (k : WorkItem)
    (post : List WorkItem) (e : WorkError) (fuel : Nat)
    (hstop : eng.stop = false)
    (hitems : eng.work_items = pre ++ k :: post)
    (hpre : ∀ it ∈ pre, it.status = WorkItemStatus.NotStarted →
      ∃ w', it.work.execute = Except.ok w')
    (hk : k.status = WorkItemStatus.NotStarted)
    (he : k.work.execute = Except.error e) :
    WorkEngine.run (fuel + 1) eng =
      RunOutcome.err WorkError.Unknown
        { eng with work_items := pre.map advanceOk ++ k :: post } := by
  rw [WorkEngine.run]
  have hd := dispatch_fail pre k post hpre hk e he
  rw [hitems] at *
  simp [hstop, hd]

/-! ### Reachable engine states -/

/-- Engine states reachable from `WorkEngine::new` by `add` calls, `stop`
calls, and the three passes of the `run` loop (a dispatch pass — possibly one
that aborted partway, a poll pass, a sweep that returned normally). -/
inductive Reaches : WorkEngine → Prop where
  | new : Reaches WorkEngine.new
  | add (e : WorkEngine) (n : String) (d : Option String) (w : Work) :
      Reaches e → Reaches (e.add n d w).1
  | stopFlag (e : WorkEngine) : Reaches e → Reaches e.setStop
  | dispatchStep (e : WorkEngine) : Reaches e →
      Reaches { e with work_items := (dispatch e.work_items).1 }
  | pollStep (e : WorkEngine) : Reaches e →
      Reaches { e with work_items := poll e.work_items }
  | sweepStep (e e' : WorkEngine) : Reaches e →
      e.move_completed_work_items = some e' → Reaches e'

theorem move_completed_spec (e e' : WorkEngine)
    (h : e.move_completed_work_items = some e') :
    ∃ act comp,
      moveLoop 0 e.work_items.length e.work_items e.completed_work_items =
        some (act, comp) ∧
      e' = { e with work_items := act, completed_work_items := comp } := by
  rw [WorkEngine.move_completed_work_items] at h
  cases hm : moveLoop 0 e.work_items.length e.work_items e.completed_work_items with
  | none => rw [hm] at h; cases h
  | some p =>
    rw [hm] at h
    obtain ⟨act, comp⟩ := p
    exact ⟨act, comp, rfl, (Option.some.inj h).symm⟩

theorem mkItems_map_status (ws : List (String × Option String × Work)) :
    ∀ c : Nat, (mkItems c ws).map WorkItem.status =
      List.replicate ws.length WorkItemStatus.NotStarted := by
  induction ws with
  | nil => intro c; rfl
  | cons hd rest ih =>
    intro c
    obtain ⟨n, d, w⟩ := hd
    simp only [mkItems, List.map_cons, List.length_cons, List.replicate_succ]
    rw [ih (c + 1)]

/-! ### Concrete values used by the claim-level theorems -/

/-- A work value whose behaviour is never consulted by the scenario using it. -/
def wInert : Work := Work.mk (Except.error WorkError.Unknown) WorkStatus.NotStarted

/-- A work value that already reports `Complete`. -/
def wDone : Work := Work.mk (Except.error WorkError.Unknown) WorkStatus.Complete

/-- A work value whose `execute` succeeds once, after which its `status`
reports `Complete`. -/
def wOneShot : Work := Work.mk (Except.ok wDone) WorkStatus.NotStarted

/-- A work value whose `execute` fails with `WorkError::Unrecoverable`. -/
def wFailHard : Work := Work.mk (Except.error WorkError.Unrecoverable) WorkStatus.NotStarted

def itemDoneA : WorkItem :=
  { id := 0, name := "a", description := none,
    status := WorkItemStatus.Complete, work := wInert }

def itemIdleB : WorkItem :=
  { id := 1, name := "b", description := none,
    status := WorkItemStatus.NotStarted, work := wInert }

def itemDoneC : WorkItem :=
  { id := 0, name := "c", description := none,
    status := WorkItemStatus.Complete, work := wDone }

def itemDoneD : WorkItem :=
  { id := 1, name := "d", description := none,
    status := WorkItemStatus.Complete, work := wDone }

/-- Active collection `[Complete, NotStarted]` — the subset S = {0}. -/
def engSweepAB : WorkEngine :=
  { work_items := [itemDoneA, itemIdleB], completed_work_items := [],
    work_item_counter := 2, stop := false }

/-- Active collection `[Complete, Complete]` — the subset S = {0, 1}. -/
def engSweepCD : WorkEngine :=
  { work_items := [itemDoneC, itemDoneD], completed_work_items := [],
    work_item_counter := 2, stop := false }

/-! ### Claim-level theorems -/

/-- C1 (sweep correctness — what the code actually does at the failing
input): with two active items `[Complete, NotStarted]` the sweep does NOT
produce active `[itemIdleB]` / completed `[itemDoneA]` as the claim states;
it removes `itemDoneA` at index 0 and then indexes position 1 of the
now-length-1 vector, an out-of-bounds panic (`none`). -/
theorem sweep_panics_first_item_complete :
    engSweepAB.move_completed_work_items = none := rfl

/-- C2 (sweep safety — what the code actually does at the failing input):
with active items `[Complete, Complete]` the scan removes index 0, shifting
the second item (which is therefore never examined at its shifted position),
and then accesses stale index 1 of the length-1 vector: the out-of-bounds
branch is reached (`none`), refuting the claim that it is unreachable. -/
theorem sweep_panics_both_complete :
    engSweepCD.move_completed_work_items = none := rfl

/-- C5 (id assignment): starting from `WorkEngine::new`, any sequence of
`add` calls returns ids `0, 1, 2, …` (strictly increasing by one from 0); the
active collection carries exactly those ids with every item `NotStarted`, the
completed collection stays empty, all ids across both collections are
distinct; and each single `add` appends one item carrying the pre-increment
counter value as id and returns that value (it always succeeds). -/
theorem add_id_assignment (ws : List (String × Option String × Work)) :
    (addAll WorkEngine.new ws).2 = List.range ws.length ∧
    ((addAll WorkEngine.new ws).1.work_items.map WorkItem.id) = List.range ws.length ∧
    (addAll WorkEngine.new ws).1.completed_work_items = [] ∧
    (((addAll WorkEngine.new ws).1.work_items.map WorkItem.id) ++
      ((addAll WorkEngine.new ws).1.completed_work_items.map WorkItem.id)).Nodup ∧
    ((addAll WorkEngine.new ws).1.work_items.map WorkItem.status =
      List.replicate ws.length WorkItemStatus.NotStarted) ∧
    ∀ (e : WorkEngine) (n : String) (d : Option String) (w : Work),
      (e.add n d w).1.work_items = e.work_items ++
        [{ id := e.work_item_counter, name := n, description := d,
           status := WorkItemStatus.NotStarted, work := w }] ∧
      (e.add n d w).2 = e.work_item_counter := by
  rw [addAll_spec]
  refine ⟨?_, ?_, rfl, ?_, ?_, ?_⟩
  · show List.range' 0 ws.length = List.range ws.length
    rw [List.range_eq_range']
  · show (mkItems 0 ws).map WorkItem.id = List.range ws.length
    rw [mkItems_map_id, List.range_eq_range']
  · show ((mkItems 0 ws).map WorkItem.id ++ ([] : List WorkItem).map WorkItem.id).Nodup
    rw [mkItems_map_id]
    simpa using List.nodup_range' (s := 0) (n := ws.length)
  · show (mkItems 0 ws).map WorkItem.status = _
    exact mkItems_map_status ws 0
  · intro e n d w
    refine ⟨rfl, rfl⟩

/-- C8 (idle termination): whenever `run` observes the stop flag at the loop
boundary — in particular right after a `stop()` call — it returns `Ok(())`
with the engine untouched: no item needs to be executed or to reach
`Complete`. -/
theorem run_idle_termination (eng : WorkEngine) (fuel : Nat) :
    (eng.stop = true → WorkEngine.run (fuel + 1) eng = RunOutcome.ok eng) ∧
    WorkEngine.run (fuel + 1) eng.setStop = RunOutcome.ok eng.setStop :=
  ⟨fun h => run_of_stop eng fuel h, run_of_stop eng.setStop fuel rfl⟩

/-- An engine whose stop flag is already set, holding an untouched
`NotStarted` item. -/
def engStopped : WorkEngine :=
  { work_items := [itemIdleB], completed_work_items := [],
    work_item_counter := 2, stop := true }

theorem run_idle_termination_witness :
    WorkEngine.run 1 engStopped = RunOutcome.ok engStopped :=
  (run_idle_termination engStopped 0).1 rfl

theorem add_id_assignment_witness :
    (addAll WorkEngine.new [("a", none, wInert), ("b", none, wInert)]).2 = [0, 1] :=
  (add_id_assignment [("a", (none : Option String), wInert),
    ("b", (none : Option String), wInert)]).1

/-- C3 (fail-fast dispatch): if the active collection is `pre ++ k :: post`
where every `NotStarted` item of `pre` executes successfully, `k` is
`NotStarted` and is the first item whose `execute` fails, then `run` returns
an error immediately; the `NotStarted` items of `pre` are now `InProgress`
(other items of `pre` untouched), while `k` and everything after it are left
exactly as they were — still `NotStarted`, their `execute` never attempted. -/
theorem run_fail_fast (eng : WorkEngine) (pre : List WorkItem) (k : WorkItem)
    (post : List WorkItem) (e : WorkError) (fuel : Nat)
    (hstop : eng.stop = false)
    (hitems : eng.work_items = pre ++ k :: post)
    (hpre : ∀ it ∈ pre, it.status = WorkItemStatus.NotStarted →
      ∃ w', it.work.execute = Except.ok w')
    (hk : k.status = WorkItemStatus.NotStarted)
    (he : k.work.execute = Except.error e) :
    WorkEngine.run (fuel + 1) eng =
      RunOutcome.err WorkError.Unknown
        { eng with work_items := pre.map advanceOk ++ k :: post } ∧
    (∀ it ∈ pre, it.status = WorkItemStatus.NotStarted →
      (advanceOk it).status = WorkItemStatus.InProgress) ∧
    (∀ it ∈ pre, it.status ≠ WorkItemStatus.NotStarted → advanceOk it = it) := by
  refine ⟨run_dispatch_err eng pre k post e fuel hstop hitems hpre hk he, ?_, ?_⟩
  · intro it hm hs
    obtain ⟨w', hw⟩ := hpre it hm hs
    simp [advanceOk, hs, hw]
  · intro it _ hs
    simp [advanceOk, hs]

def itemOkP : WorkItem :=
  { id := 0, name := "p", description := none,
    status := WorkItemStatus.NotStarted, work := wOneShot }

def itemErrK : WorkItem :=
  { id := 1, name := "k", description := none,
    status := WorkItemStatus.NotStarted, work := wFailHard }

def itemIdleQ : WorkItem :=
  { id := 2, name := "q", description := none,
    status := WorkItemStatus.NotStarted, work := wInert }

/-- `itemOkP` after its successful dispatch. -/
def itemOkPStarted : WorkItem :=
  { id := 0, name := "p", description := none,
    status := WorkItemStatus.InProgress, work := wDone }

def engFail3 : WorkEngine :=
  { work_items := [itemOkP, itemErrK, itemIdleQ], completed_work_items := [],
    work_item_counter := 3, stop := false }

def engFail3After : WorkEngine :=
  { work_items := [itemOkPStarted, itemErrK, itemIdleQ], completed_work_items := [],
    work_item_counter := 3, stop := false }

theorem run_fail_fast_witness :
    WorkEngine.run 1 engFail3 = RunOutcome.err WorkError.Unknown engFail3After ∧
    (advanceOk itemOkP).status = WorkItemStatus.InProgress := by
  obtain ⟨h1, h2, _⟩ := run_fail_fast engFail3 [itemOkP] itemErrK [itemIdleQ]
    WorkError.Unrecoverable 0 rfl rfl
    (fun it hm _ => ⟨wDone, by rcases List.mem_singleton.mp hm with rfl; rfl⟩)
    rfl rfl
  exact ⟨h1, h2 itemOkP (List.mem_singleton.mpr rfl) rfl⟩

/-- C4 (error substitution): when the first failing item's `execute` returns
`Err e` — for ANY concrete `e`, e.g. `Unrecoverable` — `run` returns
`Err(WorkError::Unknown)`: whatever error `run` reports is `Unknown`, so the
specific value `e` is never propagated to the caller. -/
theorem run_error_substitution (eng : WorkEngine) (pre : List WorkItem) (k : WorkItem)
    (post : List WorkItem) (e : WorkError) (fuel : Nat)
    (hstop : eng.stop = false)
    (hitems : eng.work_items = pre ++ k :: post)
    (hpre : ∀ it ∈ pre, it.status = WorkItemStatus.NotStarted →
      ∃ w', it.work.execute = Except.ok w')
    (hk : k.status = WorkItemStatus.NotStarted)
    (he : k.work.execute = Except.error e) :
    WorkEngine.run (fuel + 1) eng =
      RunOutcome.err WorkError.Unknown
        { eng with work_items := pre.map advanceOk ++ k :: post } ∧
    ∀ (err : WorkError) (eng' : WorkEngine),
      WorkEngine.run (fuel + 1) eng = RunOutcome.err err eng' →
        err = WorkError.Unknown := by
  have h1 := run_dispatch_err eng pre k post e fuel hstop hitems hpre hk he
  refine ⟨h1, ?_⟩
  intro err eng' h2
  rw [h1] at h2
  injection h2 with h3 h4
  exact h3.symm

def itemErrFirst : WorkItem :=
  { id := 0, name := "f", description := none,
    status := WorkItemStatus.NotStarted, work := wFailHard }

def itemSecond : WorkItem :=
  { id := 1, name := "s", description := none,
    status := WorkItemStatus.NotStarted, work := wInert }

def engFatal : WorkEngine :=
  { work_items := [itemErrFirst, itemSecond], completed_work_items := [],
    work_item_counter := 2, stop := false }

theorem run_error_substitution_witness :
    WorkEngine.run 1 engFatal = RunOutcome.err WorkError.Unknown engFatal :=
  (run_error_substitution engFatal [] itemErrFirst [itemSecond]
    WorkError.Unrecoverable 0 rfl rfl
    (fun it hm => absurd hm (List.not_mem_nil it)) rfl rfl).1

/-- C7 (round-trip scenario): an engine holding exactly one item whose
`execute` succeeds (leaving its work reporting `Complete`) finishes one full
loop iteration (dispatch, poll, sweep) with the active collection empty and
the completed collection holding that item with status `Complete`. -/
theorem run_round_trip (name : String) (desc : Option String) (w w1 : Work)
    (hw : w.execute = Except.ok w1) (hs : w1.status = WorkStatus.Complete) :
    WorkEngine.run 1 (WorkEngine.new.add name desc w).1 =
      RunOutcome.outOfFuel
        { work_items := []
          completed_work_items :=
            [{ id := 0, name := name, description := desc,
               status := WorkItemStatus.Complete, work := w1 }]
          work_item_counter := 1
          stop := false } := by
  have hd : dispatch [⟨0, name, desc, WorkItemStatus.NotStarted, w⟩] =
      ([⟨0, name, desc, WorkItemStatus.InProgress, w1⟩], none) := by
    simp [dispatch, hw]
  have hp : poll [⟨0, name, desc, WorkItemStatus.InProgress, w1⟩] =
      [⟨0, name, desc, WorkItemStatus.Complete, w1⟩] := by
    simp [poll, hs]
  show WorkEngine.run 1
      { work_items := [⟨0, name, desc, WorkItemStatus.NotStarted, w⟩]
        completed_work_items := [], work_item_counter := 1, stop := false } = _
  rw [WorkEngine.run]
  simp only [hd, hp, WorkEngine.move_completed_work_items, moveLoop, WorkEngine.run]
  rfl

theorem run_round_trip_witness :
    WorkEngine.run 1 (WorkEngine.new.add "x" none wOneShot).1 =
      RunOutcome.outOfFuel
        { work_items := []
          completed_work_items :=
            [{ id := 0, name := "x", description := none,
               status := WorkItemStatus.Complete, work := wDone }]
          work_item_counter := 1
          stop := false } :=
  run_round_trip "x" none wOneShot wDone rfl rfl

/-- C6 (lifecycle monotonicity): across every step of the run loop an item's
status only moves forward — the dispatch pass and the poll pass each relate
every item to its successor by at most one forward lifecycle step
(`NotStarted → InProgress → Complete`), with ids unchanged; and a sweep that
has run (returned normally) moves items wholesale without rewriting any
status, leaving no `Complete` item in the active collection. -/
theorem lifecycle_monotonicity :
    (∀ items : List WorkItem,
      List.Forall₂ (fun a b => a.id = b.id ∧ StatusStep a.status b.status)
        items (dispatch items).1) ∧
    (∀ items : List WorkItem,
      List.Forall₂ (fun a b => a.id = b.id ∧ StatusStep a.status b.status)
        items (poll items)) ∧
    (∀ e e' : WorkEngine, e.move_completed_work_items = some e' →
      (∀ x ∈ e'.work_items, x ∈ e.work_items) ∧
      (∀ x ∈ e'.completed_work_items,
        x ∈ e.completed_work_items ∨ x ∈ e.work_items) ∧
      (∀ x ∈ e'.work_items, x.status ≠ WorkItemStatus.Complete)) := by
  refine ⟨dispatch_statusStep, poll_statusStep, ?_⟩
  intro e e' h
  obtain ⟨act, comp, hml, rfl⟩ := move_completed_spec e e' h
  obtain ⟨hsub, hcomp⟩ := moveLoop_mem _ 0 _ _ _ _ hml
  obtain ⟨_, hnc⟩ := moveLoop_some_not_complete _ 0 _ _ _ _ (by omega) hml
  refine ⟨hsub, hcomp, ?_⟩
  intro x hx
  exact hnc x (by simpa using hx)

/-- An engine holding one `NotStarted` item; its sweep is a no-op. -/
def engIdle : WorkEngine :=
  { work_items := [itemIdleB], completed_work_items := [],
    work_item_counter := 2, stop := false }

theorem lifecycle_monotonicity_witness :
    itemIdleB.status ≠ WorkItemStatus.Complete :=
  (lifecycle_monotonicity.2.2 engIdle engIdle rfl).2.2 itemIdleB
    (by simp [engIdle])

/-- C9 (counter invariant): in every engine state reachable from `new` by
`add` calls, `stop` calls and run-loop passes, the id counter equals the
total number of items across the active and completed collections. -/
theorem counter_invariant (e : WorkEngine) (h : Reaches e) :
    e.work_item_counter =
      e.work_items.length + e.completed_work_items.length := by
  induction h with
  | new => rfl
  | add e n d w _ ih =>
    simp only [WorkEngine.add, WorkEngine.add_work_item, List.length_append,
      List.length_singleton]
    omega
  | stopFlag e _ ih => exact ih
  | dispatchStep e _ ih =>
    show e.work_item_counter =
      (dispatch e.work_items).1.length + e.completed_work_items.length
    rw [dispatch_length]
    exact ih
  | pollStep e _ ih =>
    show e.work_item_counter =
      (poll e.work_items).length + e.completed_work_items.length
    rw [poll_length]
    exact ih
  | sweepStep e e' _ hm ih =>
    obtain ⟨act, comp, hml, rfl⟩ := move_completed_spec e e' hm
    have hcnt := moveLoop_length _ 0 _ _ _ _ hml
    show e.work_item_counter = act.length + comp.length
    omega

theorem counter_invariant_witness :
    (WorkEngine.new.add "a" none wInert).1.work_item_counter =
      (WorkEngine.new.add "a" none wInert).1.work_items.length +
        (WorkEngine.new.add "a" none wInert).1.completed_work_items.length :=
  counter_invariant _ (Reaches.add WorkEngine.new "a" none wInert Reaches.new)

/-- C10 (completed-collection purity): in every reachable engine state every
item stored in the completed collection has status `Complete` — the sweep
only moves items it checked to be `Complete`, and no other operation inserts
into the completed collection. -/
theorem completed_purity (e : WorkEngine) (h : Reaches e) :
    ∀ x ∈ e.completed_work_items, x.status = WorkItemStatus.Complete := by
  induction h with
  | new => intro x hx; cases hx
  | add e n d w _ ih => exact fun x hx => ih x hx
  | stopFlag e _ ih => exact ih
  | dispatchStep e _ ih => exact ih
  | pollStep e _ ih => exact ih
  | sweepStep e e' _ hm ih =>
    obtain ⟨act, comp, hml, rfl⟩ := move_completed_spec e e' hm
    intro x hx
    rcases moveLoop_completed_status _ 0 _ _ _ _ hml x hx with hin | hc
    · exact ih x hin
    · exact hc

/-- The item of the round-trip scenario after completing. -/
def itemRound : WorkItem :=
  { id := 0, name := "a", description := none,
    status := WorkItemStatus.Complete, work := wDone }

/-- The engine state after one add / dispatch / poll / sweep sequence moved
`itemRound` into the completed collection. -/
def engAfterSweep : WorkEngine :=
  { work_items := [], completed_work_items := [itemRound],
    work_item_counter := 1, stop := false }

theorem completed_purity_witness : itemRound.status = WorkItemStatus.Complete :=
  completed_purity engAfterSweep
    (Reaches.sweepStep _ engAfterSweep
      (Reaches.pollStep _ (Reaches.dispatchStep _
        (Reaches.add WorkEngine.new "a" none wOneShot Reaches.new))) rfl)
    itemRound (by simp [engAfterSweep])
